import Mathlib

/-!
Verification of the quantum-semi-prime-factorer core (src/main.py) against its
natural-language specification.

The Python source is shallowly embedded: Python arbitrary-precision integers
become `ℕ`/`ℤ`, `fractions.Fraction` becomes the reduced-pair structure `Frac`
below (CPython stores a `Fraction` as a gcd-reduced numerator/denominator pair
and compares by cross-multiplication, which is exactly what `Frac` does),
`dict` histograms become association lists, exceptions become `Except`/`Option`,
and `time.sleep` is recorded as accumulated ghost time units.
-/

namespace Shor

/-- Module-level configuration constant `MAX_QUBITS = 128` (main.py line 17). -/
def MAX_QUBITS : ℕ := 128

/-- Module-level configuration constant `SHOTS = 4096` (main.py line 16). -/
def SHOTS : ℕ := 4096

/-- Module-level configuration constant `MAX_PARALLEL_JOBS = 8` (main.py line 18). -/
def MAX_PARALLEL_JOBS : ℕ := 8

/-- The `while exponent > 0` loop of `LargeNumberHandler.modular_exponentiation`
(main.py lines 26-30), with the mutable Python locals `result`, `base`,
`exponent` passed explicitly. -/
def modexp_loop (result base exponent modulus : ℕ) : ℕ :=
  if exponent = 0 then result
  else
    modexp_loop (if exponent % 2 = 1 then result * base % modulus else result)
      (base * base % modulus) (exponent / 2) modulus
termination_by exponent
decreasing_by exact Nat.div_lt_self (Nat.pos_of_ne_zero (by assumption)) (by norm_num)

/-- Embeds `LargeNumberHandler.modular_exponentiation` (main.py lines 22-31):
`result = 1`, `base = base % modulus`, then the square-and-multiply loop. -/
def modular_exponentiation (base exponent modulus : ℕ) : ℕ :=
  modexp_loop 1 (base % modulus) exponent modulus

theorem modexp_loop_eq (modulus : ℕ) (hm : 2 ≤ modulus) :
    ∀ exponent result base, result < modulus →
      modexp_loop result base exponent modulus = result * base ^ exponent % modulus := by
  intro e
  induction e using Nat.strong_induction_on with
  | _ e ih =>
    intro r b hr
    rw [modexp_loop]
    by_cases he : e = 0
    · simp [he, Nat.mod_eq_of_lt hr]
    · rw [if_neg he]
      have h2 : e / 2 < e := Nat.div_lt_self (Nat.pos_of_ne_zero he) (by norm_num)
      have hb : (b * b % modulus) ^ (e / 2) ≡ (b * b) ^ (e / 2) [MOD modulus] :=
        Nat.ModEq.pow _ (Nat.mod_modEq _ _)
      by_cases hp : e % 2 = 1
      · rw [if_pos hp, ih (e / 2) h2 (r * b % modulus) _ (Nat.mod_lt _ (by omega))]
        show _ % _ = _ % _
        have step : (r * b % modulus) * (b * b % modulus) ^ (e / 2)
            ≡ (r * b) * (b * b) ^ (e / 2) [MOD modulus] :=
          Nat.ModEq.mul (Nat.mod_modEq _ _) hb
        have eqn : (r * b) * (b * b) ^ (e / 2) = r * b ^ e := by
          have h1 : b * b = b ^ 2 := by ring
          have h2' : 2 * (e / 2) + 1 = e := by omega
          calc (r * b) * (b * b) ^ (e / 2) = r * (b * (b ^ 2) ^ (e / 2)) := by rw [h1]; ring
            _ = r * (b * b ^ (2 * (e / 2))) := by rw [← pow_mul]
            _ = r * b ^ (2 * (e / 2) + 1) := by ring
            _ = r * b ^ e := by rw [h2']
        rw [← eqn]
        exact step
      · rw [if_neg hp, ih (e / 2) h2 r _ hr]
        show _ % _ = _ % _
        have step : r * (b * b % modulus) ^ (e / 2)
            ≡ r * (b * b) ^ (e / 2) [MOD modulus] := Nat.ModEq.mul_left r hb
        have eqn : r * (b * b) ^ (e / 2) = r * b ^ e := by
          have h1 : b * b = b ^ 2 := by ring
          have h2' : 2 * (e / 2) = e := by omega
          calc r * (b * b) ^ (e / 2) = r * (b ^ 2) ^ (e / 2) := by rw [h1]
            _ = r * b ^ (2 * (e / 2)) := by rw [← pow_mul]
            _ = r * b ^ e := by rw [h2']
        rw [← eqn]
        exact step

theorem modular_exponentiation_eq (base exponent modulus : ℕ) (hm : 2 ≤ modulus) :
    modular_exponentiation base exponent modulus = base ^ exponent % modulus := by
  unfold modular_exponentiation
  rw [modexp_loop_eq modulus hm exponent 1 (base % modulus) (by omega), one_mul,
    ← Nat.pow_mod]

theorem modular_exponentiation_lt (base exponent modulus : ℕ) (hm : 2 ≤ modulus) :
    modular_exponentiation base exponent modulus < modulus := by
  rw [modular_exponentiation_eq base exponent modulus hm]
  exact Nat.mod_lt _ (by omega)

/-- C4: for every modulus `N ≥ 4`, base `b ≥ 2` and exponent `e ≥ 0` (`e : ℕ`),
`modular_exponentiation b e N` equals the exact arbitrary-precision value
`b ^ e % N`. -/
theorem modular_exponentiation_correct (b e N : ℕ) (hN : 4 ≤ N) (hb : 2 ≤ b) :
    modular_exponentiation b e N = b ^ e % N :=
  modular_exponentiation_eq b e N (by omega)

theorem modular_exponentiation_correct_witness :
    4 ≤ 15 ∧ 2 ≤ 7 ∧ modular_exponentiation 7 4 15 = 7 ^ 4 % 15 :=
  ⟨by norm_num, by norm_num, modular_exponentiation_correct 7 4 15 (by norm_num) (by norm_num)⟩

/-- C10: for every base `b` and modulus `m ≥ 1`, `modular_exponentiation b 0 m`
returns `1` — including `m = 1`, where the mathematical value `b ^ 0 % 1` is `0`. -/
theorem modular_exponentiation_zero_exponent (b m : ℕ) (hm : 1 ≤ m) :
    modular_exponentiation b 0 m = 1 ∧ b ^ 0 % 1 = 0 := by
  constructor
  · unfold modular_exponentiation
    rw [modexp_loop]
    simp
  · simp

theorem modular_exponentiation_zero_exponent_witness :
    1 ≤ 1 ∧ modular_exponentiation 9 0 1 = 1 ∧ 9 ^ 0 % 1 = 0 :=
  ⟨by norm_num, (modular_exponentiation_zero_exponent 9 1 (by norm_num)).1,
    (modular_exponentiation_zero_exponent 9 1 (by norm_num)).2⟩

/-- A Python `fractions.Fraction` value as CPython stores it: a gcd-reduced
numerator/denominator pair. All fractions arising in `optimized_period_finding`
are non-negative, so `ℕ` numerators suffice. -/
structure Frac where
  num : ℕ
  den : ℕ
deriving DecidableEq, Repr

/-- Python `Fraction(n, d)`: CPython's constructor divides both components by their gcd. -/
def mkFrac (n d : ℕ) : Frac :=
  let g := Nat.gcd n d
  ⟨n / g, d / g⟩

/-- The `while True` continued-fraction loop of
`fractions.Fraction.limit_denominator`, with state `(n, d, p0, q0, p1, q1)`.
The Python update `n, d = d, n - a*d` with `a = n//d` is written `n % d`,
which is the same natural number. Python never reaches `d = 0` from the call
site (the loop breaks once `q2` exceeds the bound, which happens no later than
the full expansion); the `d = 0` branch only totalises the definition. -/
def cf_loop (maxd : ℕ) (n d p0 q0 p1 q1 : ℕ) : ℕ × ℕ × ℕ × ℕ × ℕ × ℕ :=
  if hd : d = 0 then (n, d, p0, q0, p1, q1)
  else
    let a := n / d
    let q2 := q0 + a * q1
    if maxd < q2 then (n, d, p0, q0, p1, q1)
    else cf_loop maxd d (n % d) p1 q1 (p0 + a * p1) q2
termination_by d
decreasing_by exact Nat.mod_lt _ (Nat.pos_of_ne_zero hd)

/-- CPython's `fractions.Fraction.limit_denominator(max_denominator)`: return
`x` itself when its denominator is within the bound, otherwise pick between the
last convergent `p1/q1` and the best semiconvergent using CPython's
cross-multiplied distance test `2*d*(q0+k*q1) <= x.den`. Both results are
already in lowest terms, as in CPython (`_normalized=True`). Python raises
`ValueError` for `max_denominator < 1`; the callers treated below always
pass `max_denominator ≥ 1`. -/
def limit_denominator (x : Frac) (max_denominator : ℕ) : Frac :=
  if x.den ≤ max_denominator then x
  else
    match cf_loop max_denominator x.num x.den 0 1 1 0 with
    | (_, d, p0, q0, p1, q1) =>
      let k := (max_denominator - q0) / q1
      if 2 * d * (q0 + k * q1) ≤ x.den then ⟨p1, q1⟩
      else ⟨p0 + k * p1, q0 + k * q1⟩

/-- A counts histogram (`dict` of measured bitstring to occurrence count):
an association list of entries `((value, length), count)`, where `value` is
`int(output, 2)` and `length` is `len(output)` for the key string `output`. -/
abbrev Counts := List ((ℕ × ℕ) × ℕ)

/-- Python `total_shots = sum(counts.values())` (main.py line 86). -/
def total_shots (counts : Counts) : ℕ := (counts.map fun e => e.2).sum

/-- The entries surviving the noise filter `count >= threshold` with
`threshold = 0.02 * total_shots` (main.py lines 87-88); `count ≥ 0.02·total`
is the exact inequality `total ≤ 50·count`. -/
def surviving (counts : Counts) : Counts :=
  counts.filter fun e => total_shots counts ≤ 50 * e.2

/-- Python `phases = [int(output, 2) / 2**len(output) ...]` (main.py line 88) over the
surviving entries, as exact fractions. -/
def phases (counts : Counts) : List Frac :=
  (surviving counts).map fun e => mkFrac e.1.1 (2 ^ e.1.2)

/-- Python `candidates = [Fraction(phase).limit_denominator(N).denominator ...]`
(main.py line 89). -/
def candidates (counts : Counts) (N : ℕ) : List ℕ :=
  (phases counts).map fun phase => (limit_denominator phase N).den

/-- Embeds `optimized_period_finding` (main.py lines 84-90):
`min((r for r in candidates if r % 2 == 0 and 1 < r < N), default=None)`. -/
def optimized_period_finding (counts : Counts) (N : ℕ) : Option ℕ :=
  ((candidates counts N).filter fun r => decide (r % 2 = 0 ∧ 1 < r ∧ r < N)).min?

/-- C5: `optimized_period_finding` returns the minimum denominator among the
candidates that are even and strictly between 1 and `N`, and `none` exactly
when no candidate qualifies; in particular it returns `none` on the empty
histogram, and any `some r` is even with `1 < r < N`. -/
theorem optimized_period_finding_spec (counts : Counts) (N : ℕ) (hN : 1 ≤ N) :
    (∀ r, optimized_period_finding counts N = some r →
      r ∈ candidates counts N ∧ r % 2 = 0 ∧ 1 < r ∧ r < N ∧
        ∀ r' ∈ candidates counts N, r' % 2 = 0 → 1 < r' → r' < N → r ≤ r') ∧
    (optimized_period_finding counts N = none ↔
      ∀ r ∈ candidates counts N, ¬(r % 2 = 0 ∧ 1 < r ∧ r < N)) ∧
    optimized_period_finding ([] : Counts) N = none := by
  refine ⟨?_, ?_, rfl⟩
  · intro r hr
    unfold optimized_period_finding at hr
    rw [List.min?_eq_some_iff'] at hr
    obtain ⟨hmem, hmin⟩ := hr
    rw [List.mem_filter, decide_eq_true_eq] at hmem
    obtain ⟨hc, he, h1, h2⟩ := hmem
    refine ⟨hc, he, h1, h2, fun r' hr' he' h1' h2' => ?_⟩
    exact hmin r' (List.mem_filter.mpr ⟨hr', by simp [he', h1', h2']⟩)
  · unfold optimized_period_finding
    rw [List.min?_eq_none_iff, List.filter_eq_nil_iff]
    constructor
    · intro h r hr
      have := h r hr
      simpa using this
    · intro h r hr
      simpa using h r hr

theorem optimized_period_finding_spec_witness :
    1 ≤ 5 ∧
    ((∀ r, optimized_period_finding [((1, 2), 1)] 5 = some r →
      r ∈ candidates [((1, 2), 1)] 5 ∧ r % 2 = 0 ∧ 1 < r ∧ r < 5 ∧
        ∀ r' ∈ candidates [((1, 2), 1)] 5, r' % 2 = 0 → 1 < r' → r' < 5 → r ≤ r') ∧
    (optimized_period_finding [((1, 2), 1)] 5 = none ↔
      ∀ r ∈ candidates [((1, 2), 1)] 5, ¬(r % 2 = 0 ∧ 1 < r ∧ r < 5)) ∧
    optimized_period_finding ([] : Counts) 5 = none) :=
  ⟨by norm_num, optimized_period_finding_spec [((1, 2), 1)] 5 (by norm_num)⟩

/-- The base histogram of the C6 counterexample: the outcome `"1"` with one
shot passes the 2% threshold of its own histogram and yields denominator 2. -/
def baseCounts : Counts := [((1, 1), 1), ((0, 6), 49)]

/-- One appended entry whose count (1 shot) is strictly below 2% of the
extended total (51 shots). -/
def noiseCounts : Counts := [((1, 6), 1)]

/-- C6 counterexample: appending a single below-threshold entry raises the
total from 50 to 51 shots, demoting the outcome `"1"` (count 1, exactly 2% of
the original total) below the new threshold, so the result changes from
`some 2` to `none`. -/
theorem optimized_period_finding_noise_counterexample :
    optimized_period_finding baseCounts 5 = some 2 ∧
    (∀ e ∈ noiseCounts, 50 * e.2 < total_shots (baseCounts ++ noiseCounts)) ∧
    optimized_period_finding (baseCounts ++ noiseCounts) 5 = none := by
  refine ⟨by decide, by decide, by decide⟩

theorem total_shots_append (counts noise : Counts) :
    total_shots (counts ++ noise) = total_shots counts + total_shots noise := by
  unfold total_shots
  rw [List.map_append, List.sum_append]

/-- C6 amended: appending entries whose counts are below 2% of the extended
total leaves `optimized_period_finding` unchanged, provided every original
entry at or above 2% of the original total stays at or above 2% of the
extended total (the appended entries raise the total and can otherwise demote
surviving outcomes; zero-count entries always satisfy the proviso). -/
theorem optimized_period_finding_noise_invariant (counts noise : Counts) (N : ℕ)
    (hnoise : ∀ e ∈ noise, 50 * e.2 < total_shots (counts ++ noise))
    (hkeep : ∀ e ∈ counts, total_shots counts ≤ 50 * e.2 →
      total_shots (counts ++ noise) ≤ 50 * e.2) :
    optimized_period_finding (counts ++ noise) N = optimized_period_finding counts N := by
  have hsurv : surviving (counts ++ noise) = surviving counts := by
    unfold surviving
    rw [List.filter_append]
    have h2 : noise.filter (fun e => total_shots (counts ++ noise) ≤ 50 * e.2) = [] := by
      rw [List.filter_eq_nil_iff]
      intro e he
      simpa using Nat.not_le.mpr (hnoise e he)
    rw [h2, List.append_nil]
    apply List.filter_congr
    intro e he
    by_cases hp : total_shots counts ≤ 50 * e.2
    · simp [hp, hkeep e he hp]
    · have hTT : total_shots counts ≤ total_shots (counts ++ noise) := by
        rw [total_shots_append]; omega
      have : ¬ total_shots (counts ++ noise) ≤ 50 * e.2 := by omega
      simp [hp, this]
  unfold optimized_period_finding candidates phases
  rw [hsurv]

/-- A histogram whose single entry survives its own threshold. -/
def keptCounts : Counts := [((1, 1), 1)]

/-- Zero-count entries: below any positive threshold and leaving the total
unchanged. -/
def zeroNoise : Counts := [((0, 3), 0)]

theorem optimized_period_finding_noise_invariant_witness :
    (∀ e ∈ zeroNoise, 50 * e.2 < total_shots (keptCounts ++ zeroNoise)) ∧
    (∀ e ∈ keptCounts, total_shots keptCounts ≤ 50 * e.2 →
      total_shots (keptCounts ++ zeroNoise) ≤ 50 * e.2) ∧
    optimized_period_finding (keptCounts ++ zeroNoise) 5 =
      optimized_period_finding keptCounts 5 :=
  ⟨by decide, by decide,
    optimized_period_finding_noise_invariant keptCounts zeroNoise 5 (by decide) (by decide)⟩

/-- Python `len(bin(N)) - 2`: the bit length of `N` for `N ≥ 1`, and `1` for
`N = 0` (`bin(0)` is `'0b0'`). -/
def bin_length (N : ℕ) : ℕ :=
  if N ≤ 1 then 1 else bin_length (N / 2) + 1
termination_by N
decreasing_by exact Nat.div_lt_self (by omega) (by norm_num)

theorem bin_length_two_pow (k : ℕ) : bin_length (2 ^ k) = k + 1 := by
  induction k with
  | zero => rw [bin_length]; norm_num
  | succ k ih =>
    rw [bin_length]
    have h1 : ¬ 2 ^ (k + 1) ≤ 1 := by
      have : 2 ^ 1 ≤ 2 ^ (k + 1) := Nat.pow_le_pow_right (by norm_num) (by omega)
      omega
    rw [if_neg h1, pow_succ, Nat.mul_div_cancel _ (by norm_num), ih]

theorem lt_two_pow_bin_length (N : ℕ) : N < 2 ^ bin_length N := by
  induction N using Nat.strong_induction_on with
  | _ N ih =>
    rw [bin_length]
    by_cases h : N ≤ 1
    · rw [if_pos h]; omega
    · rw [if_neg h]
      have hlt : N / 2 < N := Nat.div_lt_self (by omega) (by norm_num)
      have := ih (N / 2) hlt
      rw [pow_succ]
      omega

theorem bin_length_le_of_lt_two_pow (m n : ℕ) (hn : 1 ≤ n) (h : m < 2 ^ n) :
    bin_length m ≤ n := by
  induction n generalizing m with
  | zero => omega
  | succ n ih =>
    rw [bin_length]
    by_cases hm : m ≤ 1
    · rw [if_pos hm]; omega
    · rw [if_neg hm]
      have hn' : 1 ≤ n := by
        by_contra hc
        have : n = 0 := by omega
        subst this
        simp at h
        omega
      have : m / 2 < 2 ^ n := by
        rw [pow_succ] at h
        omega
      have := ih (m / 2) hn' this
      omega

/-- Python exceptions that the embedded circuit builder can raise. -/
inductive PyError
  | nameError
  | indexError
deriving DecidableEq, Repr

/-- Quantum gates emitted by `_build_circuit`. Qubits are numbered
`control i ↦ i` (`0 ≤ i < 2n`), `target j ↦ 2n + j` (`0 ≤ j < n`),
`ancilla k ↦ 3n + k`. -/
inductive Gate
  | h (q : ℕ)
  | cx (c t : ℕ)
  | ccx (c1 c2 t : ℕ)
deriving DecidableEq, Repr

/-- The circuit object of `LargeNumberShorCircuit.create_quantum_circuits`:
register widths as constructed at main.py lines 62-66 plus the gate list. -/
structure CircuitDescriptor where
  controlWidth : ℕ
  targetWidth : ℕ
  ancillaWidth : ℕ
  classicalWidth : ℕ
  gates : List Gate
deriving DecidableEq, Repr

/-- Total qubits held by a circuit's quantum registers
(control + target + ancilla; the classical register holds bits, not qubits). -/
def descriptor_qubits (c : CircuitDescriptor) : ℕ :=
  c.controlWidth + c.targetWidth + c.ancillaWidth

/-- Field `self.n = len(bin(N)) - 2` (main.py line 58). -/
def circuit_n (N : ℕ) : ℕ := bin_length N

/-- Field `self.total_qubits = min(MAX_QUBITS, 3 * self.n + 2)` (main.py line 59).
This field is assigned in `__init__` and never read again. -/
def total_qubits (N : ℕ) : ℕ := min MAX_QUBITS (3 * circuit_n N + 2)

/-- The circuit as constructed at main.py lines 62-66, before `_build_circuit`
adds gates: registers `control` (width `2n`), `target` (width `n`), `ancilla`
(width 2) and `classical` (width `2n`), with widths taken from `self.n`
uncapped — `self.total_qubits` is not consulted. -/
def create_registers (N : ℕ) : CircuitDescriptor :=
  ⟨2 * circuit_n N, circuit_n N, 2, 2 * circuit_n N, []⟩

/-- One iteration of the oracle loop of `_build_circuit` (main.py lines 73-81)
for control qubit `i`: precompute `a^(2^i) mod N`, pad its binary expansion to
the target width `n` (`zfill`), and emit `cx ctrl ancilla[0]`, one
`ccx ancilla[0] ctrl target[j]` per set bit `j`, and `cx ctrl ancilla[0]`.
Indexing `target[j]` raises `IndexError` when the residue has a set bit at
position `j ≥ n` (then `len(binary) > n` and the padded string is not
truncated). -/
def oracle_gates (N n a i : ℕ) : Except PyError (List Gate) :=
  let result := modular_exponentiation a (2 ^ i) N
  let width := max n (bin_length result)
  if width ≤ n then
    Except.ok ([Gate.cx i (3 * n)] ++
      ((List.range width).filterMap fun j =>
        if result.testBit j then some (Gate.ccx (3 * n) i (2 * n + j)) else none) ++
      [Gate.cx i (3 * n)])
  else Except.error PyError.indexError

/-- The `for i, ctrl in enumerate(control)` loop of `_build_circuit` over
control qubits `0, …, k-1`, concatenating the per-qubit gates and stopping at
the first exception. -/
def oracle_loop (N n a : ℕ) : ℕ → Except PyError (List Gate)
  | 0 => Except.ok []
  | k + 1 =>
    match oracle_loop N n a k with
    | Except.error e => Except.error e
    | Except.ok prev =>
      match oracle_gates N n a k with
      | Except.error e => Except.error e
      | Except.ok g => Except.ok (prev ++ g)

/-- Embeds `LargeNumberShorCircuit._build_circuit` (main.py lines 70-82): Hadamards on
every control qubit, the oracle loop, then `circuit.measure(control, classical)`.
The name `classical` is not bound in `_build_circuit`'s scope (it is a local of
`create_quantum_circuits` and no global exists), so evaluating the final
statement raises `NameError` whenever the oracle loop completes. -/
def _build_circuit (N n a : ℕ) : Except PyError (List Gate) :=
  let _hGates := (List.range (2 * n)).map Gate.h
  match oracle_loop N n a (2 * n) with
  | Except.error e => Except.error e
  | Except.ok _ => Except.error PyError.nameError

/-- Embeds `LargeNumberShorCircuit.create_quantum_circuits` (main.py lines 61-68):
allocate the registers, run `_build_circuit`, return the circuit. -/
def create_quantum_circuits (N a : ℕ) : Except PyError CircuitDescriptor :=
  let circuit := create_registers N
  match _build_circuit N (circuit_n N) a with
  | Except.error e => Except.error e
  | Except.ok gates => Except.ok { circuit with gates := gates }

theorem descriptor_qubits_create_registers (N : ℕ) :
    descriptor_qubits (create_registers N) = 3 * circuit_n N + 2 := by
  show 2 * circuit_n N + circuit_n N + 2 = 3 * circuit_n N + 2
  ring

theorem total_qubits_def (N : ℕ) :
    total_qubits N = min MAX_QUBITS (3 * circuit_n N + 2) := rfl

theorem _build_circuit_always_errors (N n a : ℕ) :
    ∃ e, _build_circuit N n a = Except.error e := by
  unfold _build_circuit
  cases oracle_loop N n a (2 * n) with
  | error e => exact ⟨e, rfl⟩
  | ok _ => exact ⟨PyError.nameError, rfl⟩

theorem create_quantum_circuits_errors (N a : ℕ) :
    ∃ e, create_quantum_circuits N a = Except.error e := by
  unfold create_quantum_circuits
  obtain ⟨e, he⟩ := _build_circuit_always_errors N (circuit_n N) a
  rw [he]
  exact ⟨e, rfl⟩

theorem oracle_gates_ok (N n a i : ℕ) (hN : 4 ≤ N) (hn : circuit_n N ≤ n) :
    ∃ g, oracle_gates N n a i = Except.ok g := by
  unfold oracle_gates
  have hres : modular_exponentiation a (2 ^ i) N < N :=
    modular_exponentiation_lt a (2 ^ i) N (by omega)
  have hN2 : N < 2 ^ circuit_n N := lt_two_pow_bin_length N
  have h1 : 1 ≤ n := by
    have : 1 ≤ circuit_n N := by
      unfold circuit_n
      rw [bin_length]
      split <;> omega
    omega
  have hle : bin_length (modular_exponentiation a (2 ^ i) N) ≤ n := by
    apply bin_length_le_of_lt_two_pow _ n h1
    calc modular_exponentiation a (2 ^ i) N < N := hres
      _ < 2 ^ circuit_n N := hN2
      _ ≤ 2 ^ n := Nat.pow_le_pow_right (by norm_num) hn
  rw [if_pos (by omega)]
  exact ⟨_, rfl⟩

theorem oracle_loop_ok (N n a : ℕ) (hN : 4 ≤ N) (hn : circuit_n N ≤ n) :
    ∀ k, ∃ g, oracle_loop N n a k = Except.ok g := by
  intro k
  induction k with
  | zero => exact ⟨[], rfl⟩
  | succ k ih =>
    obtain ⟨g, hg⟩ := ih
    obtain ⟨g', hg'⟩ := oracle_gates_ok N n a k hN hn
    exact ⟨g ++ g', by rw [oracle_loop, hg, hg']⟩

/-- C2 (refuted): for every well-formed pair (`4 ≤ N`, `1 < a < N`),
`create_quantum_circuits` raises `NameError` — the oracle loop completes
without internal failure, but the final `circuit.measure(control, classical)`
references the unbound name `classical` — so no circuit descriptor is ever
produced. -/
theorem create_quantum_circuits_always_name_error (N a : ℕ)
    (hN : 4 ≤ N) (ha1 : 1 < a) (ha2 : a < N) :
    create_quantum_circuits N a = Except.error PyError.nameError := by
  unfold create_quantum_circuits _build_circuit
  obtain ⟨g, hg⟩ := oracle_loop_ok N (circuit_n N) a hN (le_refl _) (2 * circuit_n N)
  rw [hg]

theorem create_quantum_circuits_always_name_error_witness :
    4 ≤ 15 ∧ 1 < 7 ∧ 7 < 15 ∧
    create_quantum_circuits 15 7 = Except.error PyError.nameError :=
  ⟨by norm_num, by norm_num, by norm_num,
    create_quantum_circuits_always_name_error 15 7 (by norm_num) (by norm_num) (by norm_num)⟩

/-- C3 (refuted): the register widths are not capped. For `N = 2^42`
(bit length 43) the allocated quantum registers hold `3·43 + 2 = 131` qubits,
exceeding `MAX_QUBITS = 128`, even though the never-read field
`total_qubits` is `min(128, 131) = 128`. -/
theorem register_widths_not_capped :
    descriptor_qubits (create_registers (2 ^ 42)) = 131 ∧
    total_qubits (2 ^ 42) = 128 ∧
    MAX_QUBITS < descriptor_qubits (create_registers (2 ^ 42)) := by
  have hb : circuit_n (2 ^ 42) = 43 := bin_length_two_pow 42
  rw [descriptor_qubits_create_registers, total_qubits_def, hb]
  norm_num [MAX_QUBITS]

/-- The `for attempt in range(max_retries)` loop of `execute_with_retry`
(main.py lines 42-48). `backend attempt = some counts` models a successful
`run`/`get_counts`; `none` models any raised exception, after which the loop
sleeps `2 ^ attempt` time units. Returns the histogram (`{}` = `[]` after
exhaustion, main.py line 49) together with the ghost data: number of attempts
made and total time slept. -/
def retry_loop (backend : ℕ → Option Counts) (attempt : ℕ) :
    ℕ → ℕ → Counts × ℕ × ℕ
  | 0, slept => ([], attempt, slept)
  | remaining + 1, slept =>
    match backend attempt with
    | some counts => (counts, attempt + 1, slept)
    | none => retry_loop backend (attempt + 1) remaining (slept + 2 ^ attempt)

/-- Embeds `execute_with_retry(circuit, max_retries=3)` (main.py lines 41-49). -/
def execute_with_retry (backend : ℕ → Option Counts) (max_retries : ℕ) :
    Counts × ℕ × ℕ :=
  retry_loop backend 0 max_retries 0

/-- Embeds `OptimizedQuantumRings.execute_circuits` (main.py lines 40-53): one
`execute_with_retry` per circuit, results in input order (the thread pool is
joined in submission order). -/
def execute_circuits (backend : CircuitDescriptor → ℕ → Option Counts)
    (circuits : List CircuitDescriptor) : List Counts :=
  circuits.map fun c => (execute_with_retry (backend c) 3).1

theorem retry_loop_attempts_le (backend : ℕ → Option Counts) :
    ∀ remaining attempt slept,
      (retry_loop backend attempt remaining slept).2.1 ≤ attempt + remaining := by
  intro remaining
  induction remaining with
  | zero => intro attempt slept; simp [retry_loop]
  | succ remaining ih =>
    intro attempt slept
    rw [retry_loop]
    cases backend attempt with
    | some counts => simp
    | none =>
      simp only []
      have := ih (attempt + 1) (slept + 2 ^ attempt)
      omega

theorem execute_with_retry_all_fail (backend : ℕ → Option Counts)
    (h : ∀ i, i < 3 → backend i = none) :
    execute_with_retry backend 3 = ([], 3, 1 + 2 + 4) := by
  unfold execute_with_retry
  rw [retry_loop, h 0 (by norm_num)]
  rw [retry_loop, h 1 (by norm_num)]
  rw [retry_loop, h 2 (by norm_num)]
  rw [retry_loop]
  norm_num

/-- C7: per circuit, at most 3 submission attempts are made; when the backend
always fails the gateway sleeps `2^0 + 2^1 + 2^2 = 7` time units in total and
returns the empty histogram (and, batch-wise, an empty histogram for every
circuit); no exception escapes — the return type carries no error. -/
theorem execute_with_retry_spec (backend : ℕ → Option Counts) :
    (execute_with_retry backend 3).2.1 ≤ 3 ∧
    ((∀ i, i < 3 → backend i = none) →
      execute_with_retry backend 3 = ([], 3, 1 + 2 + 4)) ∧
    ∀ (backendF : CircuitDescriptor → ℕ → Option Counts)
      (circuits : List CircuitDescriptor),
      (∀ c i, i < 3 → backendF c i = none) →
      execute_circuits backendF circuits = circuits.map fun _ => ([] : Counts) := by
  refine ⟨?_, execute_with_retry_all_fail backend, ?_⟩
  · have := retry_loop_attempts_le backend 3 0 0
    simpa [execute_with_retry] using this
  · intro backendF circuits hfail
    unfold execute_circuits
    apply List.map_congr_left
    intro c _
    rw [execute_with_retry_all_fail (backendF c) (hfail c)]

/-- A per-attempt backend that always raises. -/
def alwaysFailAttempts : ℕ → Option Counts := fun _ => none

/-- A per-circuit backend that always raises on every attempt. -/
def alwaysFailBackend : CircuitDescriptor → ℕ → Option Counts := fun _ _ => none

theorem execute_with_retry_spec_witness :
    (execute_with_retry alwaysFailAttempts 3).2.1 ≤ 3 ∧
    execute_with_retry alwaysFailAttempts 3 = ([], 3, 1 + 2 + 4) ∧
    execute_circuits alwaysFailBackend [create_registers 15] =
      [create_registers 15].map fun _ => ([] : Counts) :=
  ⟨(execute_with_retry_spec alwaysFailAttempts).1,
    (execute_with_retry_spec alwaysFailAttempts).2.1 (fun _ _ => rfl),
    (execute_with_retry_spec alwaysFailAttempts).2.2 alwaysFailBackend
      [create_registers 15] (fun _ _ _ => rfl)⟩

/-- Observable steps of one round of `run_shors_algorithm`, recorded for the
ordering claims: a classical gcd check of a base, the start of a circuit
construction for a base, and a dispatch to the quantum backend. -/
inductive RoundEvent
  | classicalCheck (a : ℕ)
  | circuitBuild (a : ℕ)
  | quantumDispatch
deriving DecidableEq, Repr

/-- The classical gcd loop of `run_shors_algorithm` (main.py lines 99-102):
for each base in order, compute `factor = gcd(a, N)` and return
`(factor, N // factor)` as soon as `1 < factor < N`. -/
def classical_phase (N : ℕ) : List ℕ → Option (ℕ × ℕ) × List RoundEvent
  | [] => (none, [])
  | a :: rest =>
    if 1 < Nat.gcd a N ∧ Nat.gcd a N < N then
      (some (Nat.gcd a N, N / Nat.gcd a N), [RoundEvent.classicalCheck a])
    else
      ((classical_phase N rest).1, RoundEvent.classicalCheck a :: (classical_phase N rest).2)

/-- The list comprehension
`circuits = [circuit_generator.create_quantum_circuits(a) for a in bases]`
(main.py line 103): builds left to right, aborting at the first exception. -/
def build_circuits (N : ℕ) : List ℕ → Except PyError (List CircuitDescriptor) × List RoundEvent
  | [] => (Except.ok [], [])
  | a :: rest =>
    match create_quantum_circuits N a with
    | Except.error e => (Except.error e, [RoundEvent.circuitBuild a])
    | Except.ok c =>
      match build_circuits N rest with
      | (Except.error e, tr) => (Except.error e, RoundEvent.circuitBuild a :: tr)
      | (Except.ok cs, tr) => (Except.ok (c :: cs), RoundEvent.circuitBuild a :: tr)

/-- The inner factor loop of `run_shors_algorithm` (main.py lines 111-113):
`for factor in (gcd(x-1, N), gcd(x+1, N)): if 1 < factor < N: return ...`.
Python's `math.gcd` of possibly-negative arguments is the gcd of absolute
values, i.e. `Int.gcd`. -/
def factor_pair_test (N x : ℕ) : Option (ℕ × ℕ) :=
  let f1 := Int.gcd ((x : ℤ) - 1) N
  let f2 := Int.gcd ((x : ℤ) + 1) N
  if 1 < f1 ∧ f1 < N then some (f1, N / f1)
  else if 1 < f2 ∧ f2 < N then some (f2, N / f2)
  else none

/-- The body of `for a, counts in zip(bases, results)` (main.py lines 105-113)
for one base: skip empty histograms, extract a period, use it only when it is
truthy (`period and period % 2 == 0`), then try the two gcd factors. -/
def process_result (N a : ℕ) (counts : Counts) : Option (ℕ × ℕ) :=
  if counts.isEmpty then none
  else
    match optimized_period_finding counts N with
    | none => none
    | some period =>
      if period ≠ 0 ∧ period % 2 = 0 then
        factor_pair_test N (modular_exponentiation a (period / 2) N)
      else none

/-- Loop `for a, counts in zip(bases, results)` (main.py line 105): first success
wins; `zip` stops at the shorter list. -/
def process_results (N : ℕ) : List ℕ → List Counts → Option (ℕ × ℕ)
  | a :: rest, counts :: more =>
    (match process_result N a counts with
     | some pq => some pq
     | none => process_results N rest more)
  | _, _ => none

/-- One iteration of the `while True` loop of `run_shors_algorithm`
(main.py lines 96-115) for a given sampled `bases` list: the classical gcd
check, then circuit building (whose exception the bare `except: pass`
swallows, ending the round), then batch execution and result processing.
Returns the factor pair if the round returned, plus the event trace. -/
def run_round (N : ℕ) (bases : List ℕ)
    (backend : CircuitDescriptor → ℕ → Option Counts) :
    Option (ℕ × ℕ) × List RoundEvent :=
  match classical_phase N bases with
  | (some pq, tr) => (some pq, tr)
  | (none, tr) =>
    match build_circuits N bases with
    | (Except.error _, btr) => (none, tr ++ btr)
    | (Except.ok circuits, btr) =>
      (process_results N bases (execute_circuits backend circuits),
        tr ++ btr ++ [RoundEvent.quantumDispatch])

/-- The `while True` loop of `run_shors_algorithm`, step-indexed: the result
after at most `k` rounds, round `i` using the sampled bases `basesSeq i`.
`none` means the loop is still running after `k` rounds. -/
def run_rounds (N : ℕ) (basesSeq : ℕ → List ℕ)
    (backend : CircuitDescriptor → ℕ → Option Counts) : ℕ → Option (ℕ × ℕ)
  | 0 => none
  | k + 1 =>
    match run_rounds N basesSeq backend k with
    | some pq => some pq
    | none => (run_round N (basesSeq k) backend).1

/-- The spec's FactorResult contract: `p * q = N` with `1 < p, q < N`. -/
def FactorResult (N p q : ℕ) : Prop :=
  p * q = N ∧ 1 < p ∧ p < N ∧ 1 < q ∧ q < N

theorem factor_result_of_dvd (N f : ℕ) (hdvd : f ∣ N) (h1 : 1 < f) (h2 : f < N) :
    FactorResult N f (N / f) := by
  have hN : 0 < N := by omega
  have hmul : N / f * f = N := Nat.div_mul_cancel hdvd
  have hq1 : 1 < N / f := by
    by_contra hc
    push_neg at hc
    rcases Nat.le_one_iff_eq_zero_or_eq_one.mp hc with h0 | h0 <;> rw [h0] at hmul <;> omega
  exact ⟨Nat.mul_div_cancel' hdvd, h1, h2, hq1, Nat.div_lt_self hN h1⟩

theorem classical_phase_factor (N : ℕ) : ∀ (bases : List ℕ) (p q : ℕ),
    (classical_phase N bases).1 = some (p, q) → FactorResult N p q := by
  intro bases
  induction bases with
  | nil => intro p q h; simp [classical_phase] at h
  | cons a rest ih =>
    intro p q h
    rw [classical_phase] at h
    by_cases hc : 1 < Nat.gcd a N ∧ Nat.gcd a N < N
    · rw [if_pos hc] at h
      simp only [Option.some.injEq, Prod.mk.injEq] at h
      obtain ⟨hp, hq⟩ := h
      subst hp; subst hq
      exact factor_result_of_dvd N _ (Nat.gcd_dvd_right a N) hc.1 hc.2
    · rw [if_neg hc] at h
      exact ih p q h

theorem int_gcd_nat_dvd (z : ℤ) (N : ℕ) : Int.gcd z (N : ℤ) ∣ N := by
  have h := Nat.gcd_dvd_right z.natAbs N
  simpa [Int.gcd, Int.natAbs_ofNat] using h

theorem factor_pair_test_factor (N x p q : ℕ) :
    factor_pair_test N x = some (p, q) → FactorResult N p q := by
  intro h
  unfold factor_pair_test at h
  by_cases h1 : 1 < Int.gcd ((x : ℤ) - 1) N ∧ Int.gcd ((x : ℤ) - 1) N < N
  · rw [if_pos h1] at h
    simp only [Option.some.injEq, Prod.mk.injEq] at h
    obtain ⟨hp, hq⟩ := h
    subst hp; subst hq
    exact factor_result_of_dvd N _ (int_gcd_nat_dvd _ N) h1.1 h1.2
  · rw [if_neg h1] at h
    by_cases h2 : 1 < Int.gcd ((x : ℤ) + 1) N ∧ Int.gcd ((x : ℤ) + 1) N < N
    · rw [if_pos h2] at h
      simp only [Option.some.injEq, Prod.mk.injEq] at h
      obtain ⟨hp, hq⟩ := h
      subst hp; subst hq
      exact factor_result_of_dvd N _ (int_gcd_nat_dvd _ N) h2.1 h2.2
    · rw [if_neg h2] at h
      simp at h

theorem process_result_factor (N a : ℕ) (counts : Counts) (p q : ℕ) :
    process_result N a counts = some (p, q) → FactorResult N p q := by
  intro h
  unfold process_result at h
  split at h
  · simp at h
  · split at h
    · simp at h
    · split at h
      · exact factor_pair_test_factor N _ p q h
      · simp at h

theorem process_results_factor (N : ℕ) : ∀ (bases : List ℕ) (results : List Counts) (p q : ℕ),
    process_results N bases results = some (p, q) → FactorResult N p q := by
  intro bases
  induction bases with
  | nil => intro results p q h; simp [process_results] at h
  | cons a rest ih =>
    intro results p q h
    cases results with
    | nil => simp [process_results] at h
    | cons counts more =>
      rw [process_results] at h
      cases hpr : process_result N a counts with
      | some pq =>
        rw [hpr] at h
        simp only [Option.some.injEq] at h
        subst h
        exact process_result_factor N a counts p q (by rw [hpr])
      | none =>
        rw [hpr] at h
        exact ih more p q h

theorem run_round_factor (N : ℕ) (bases : List ℕ)
    (backend : CircuitDescriptor → ℕ → Option Counts) (p q : ℕ) :
    (run_round N bases backend).1 = some (p, q) → FactorResult N p q := by
  intro h
  unfold run_round at h
  rcases hcp : classical_phase N bases with ⟨res, tr⟩
  rw [hcp] at h
  cases res with
  | some pq =>
    simp only [Option.some.injEq] at h
    subst h
    exact classical_phase_factor N bases p q (by rw [hcp])
  | none =>
    rcases hbc : build_circuits N bases with ⟨bres, btr⟩
    rw [hbc] at h
    cases bres with
    | error e => simp at h
    | ok circuits => exact process_results_factor N bases _ p q h

theorem run_rounds_factor (N : ℕ) (basesSeq : ℕ → List ℕ)
    (backend : CircuitDescriptor → ℕ → Option Counts) : ∀ (k p q : ℕ),
    run_rounds N basesSeq backend k = some (p, q) → FactorResult N p q := by
  intro k
  induction k with
  | zero => intro p q h; simp [run_rounds] at h
  | succ k ih =>
    intro p q h
    rw [run_rounds] at h
    cases hr : run_rounds N basesSeq backend k with
    | some pq =>
      rw [hr] at h
      simp only [Option.some.injEq] at h
      subst h
      exact ih p q hr
    | none =>
      rw [hr] at h
      exact run_round_factor N (basesSeq k) backend p q h

/-- C1: whenever the orchestrator returns a pair `(p, q)` — from the classical
gcd short-circuit (main.py line 102), from the period-based factor test
(main.py line 113), or from any number of full rounds — it satisfies
`p * q = N` and `1 < p, q < N`. -/
theorem run_shors_returns_factor_pairs (N : ℕ) (hN : 4 ≤ N) :
    (∀ (bases : List ℕ) (p q : ℕ),
      (classical_phase N bases).1 = some (p, q) → FactorResult N p q) ∧
    (∀ (a : ℕ) (counts : Counts) (p q : ℕ),
      process_result N a counts = some (p, q) → FactorResult N p q) ∧
    (∀ (basesSeq : ℕ → List ℕ) (backend : CircuitDescriptor → ℕ → Option Counts)
      (k p q : ℕ),
      run_rounds N basesSeq backend k = some (p, q) → FactorResult N p q) :=
  ⟨classical_phase_factor N, fun a counts => process_result_factor N a counts,
    fun basesSeq backend => run_rounds_factor N basesSeq backend⟩

theorem run_shors_returns_factor_pairs_witness :
    4 ≤ 15 ∧
    ((∀ (bases : List ℕ) (p q : ℕ),
      (classical_phase 15 bases).1 = some (p, q) → FactorResult 15 p q) ∧
    (∀ (a : ℕ) (counts : Counts) (p q : ℕ),
      process_result 15 a counts = some (p, q) → FactorResult 15 p q) ∧
    (∀ (basesSeq : ℕ → List ℕ) (backend : CircuitDescriptor → ℕ → Option Counts)
      (k p q : ℕ),
      run_rounds 15 basesSeq backend k = some (p, q) → FactorResult 15 p q)) :=
  ⟨by norm_num, run_shors_returns_factor_pairs 15 (by norm_num)⟩

theorem classical_phase_trace (N : ℕ) : ∀ (bases : List ℕ),
    ∀ e ∈ (classical_phase N bases).2, ∃ b, e = RoundEvent.classicalCheck b := by
  intro bases
  induction bases with
  | nil => intro e he; simp [classical_phase] at he
  | cons a rest ih =>
    intro e he
    rw [classical_phase] at he
    by_cases hc : 1 < Nat.gcd a N ∧ Nat.gcd a N < N
    · rw [if_pos hc] at he
      simp only [List.mem_singleton] at he
      exact ⟨a, he⟩
    · rw [if_neg hc] at he
      simp only [List.mem_cons] at he
      rcases he with he | he
      · exact ⟨a, he⟩
      · exact ih e he

theorem classical_phase_finds (N : ℕ) : ∀ (bases : List ℕ),
    (∃ a ∈ bases, 1 < Nat.gcd a N ∧ Nat.gcd a N < N) →
    ∃ a ∈ bases, 1 < Nat.gcd a N ∧ Nat.gcd a N < N ∧
      (classical_phase N bases).1 = some (Nat.gcd a N, N / Nat.gcd a N) := by
  intro bases
  induction bases with
  | nil => intro h; simp at h
  | cons a rest ih =>
    intro h
    by_cases hc : 1 < Nat.gcd a N ∧ Nat.gcd a N < N
    · refine ⟨a, List.mem_cons_self a rest, hc.1, hc.2, ?_⟩
      rw [classical_phase, if_pos hc]
    · have h' : ∃ b ∈ rest, 1 < Nat.gcd b N ∧ Nat.gcd b N < N := by
        rcases h with ⟨b, hb, hb1, hb2⟩
        rcases List.mem_cons.mp hb with rfl | hb'
        · exact absurd ⟨hb1, hb2⟩ hc
        · exact ⟨b, hb', hb1, hb2⟩
      rcases ih h' with ⟨b, hb, hb1, hb2, hres⟩
      refine ⟨b, List.mem_cons_of_mem a hb, hb1, hb2, ?_⟩
      rw [classical_phase, if_neg hc]
      exact hres

theorem run_round_of_classical_some (N : ℕ) (bases : List ℕ)
    (backend : CircuitDescriptor → ℕ → Option Counts) (pq : ℕ × ℕ)
    (h : (classical_phase N bases).1 = some pq) :
    run_round N bases backend = (some pq, (classical_phase N bases).2) := by
  unfold run_round
  rcases hcp : classical_phase N bases with ⟨res, tr⟩
  rw [hcp] at h
  simp only at h
  subst h
  rfl

/-- C8: if any sampled base shares a nontrivial factor with `N`, the round
returns `(gcd(a, N), N / gcd(a, N))` and its trace contains only classical
gcd-check events — no circuit construction and no quantum dispatch. -/
theorem classical_check_before_dispatch (N : ℕ) (bases : List ℕ)
    (backend : CircuitDescriptor → ℕ → Option Counts)
    (h : ∃ a ∈ bases, 1 < Nat.gcd a N ∧ Nat.gcd a N < N) :
    ∃ a ∈ bases, 1 < Nat.gcd a N ∧ Nat.gcd a N < N ∧
      (run_round N bases backend).1 = some (Nat.gcd a N, N / Nat.gcd a N) ∧
      ∀ e ∈ (run_round N bases backend).2, ∃ b, e = RoundEvent.classicalCheck b := by
  rcases classical_phase_finds N bases h with ⟨a, ha, h1, h2, hres⟩
  have hrr := run_round_of_classical_some N bases backend _ hres
  refine ⟨a, ha, h1, h2, ?_, ?_⟩
  · rw [hrr]
  · rw [hrr]
    exact classical_phase_trace N bases

/-- The backend scenario of C9: every submission succeeds and returns an empty
histogram. -/
def emptyHistBackend : CircuitDescriptor → ℕ → Option Counts := fun _ _ => some []

theorem classical_check_before_dispatch_witness :
    ∃ a ∈ [5], 1 < Nat.gcd a 15 ∧ Nat.gcd a 15 < 15 ∧
      (run_round 15 [5] emptyHistBackend).1 = some (Nat.gcd a 15, 15 / Nat.gcd a 15) ∧
      ∀ e ∈ (run_round 15 [5] emptyHistBackend).2, ∃ b, e = RoundEvent.classicalCheck b :=
  classical_check_before_dispatch 15 [5] emptyHistBackend (by decide)

theorem classical_phase_none_of_no_factor (N : ℕ) : ∀ (bases : List ℕ),
    (∀ a ∈ bases, ¬(1 < Nat.gcd a N ∧ Nat.gcd a N < N)) →
    (classical_phase N bases).1 = none := by
  intro bases
  induction bases with
  | nil => intro _; rfl
  | cons a rest ih =>
    intro h
    rw [classical_phase, if_neg (h a (List.mem_cons_self a rest))]
    exact ih fun b hb => h b (List.mem_cons_of_mem a hb)

theorem run_round_none_of_no_factor (N : ℕ) (bases : List ℕ)
    (backend : CircuitDescriptor → ℕ → Option Counts)
    (h : ∀ a ∈ bases, ¬(1 < Nat.gcd a N ∧ Nat.gcd a N < N)) :
    (run_round N bases backend).1 = none := by
  have hcp1 : (classical_phase N bases).1 = none := classical_phase_none_of_no_factor N bases h
  unfold run_round
  rcases hcp : classical_phase N bases with ⟨res, tr⟩
  rw [hcp] at hcp1
  simp only at hcp1
  subst hcp1
  cases bases with
  | nil => rfl
  | cons a rest =>
    obtain ⟨e, he⟩ := create_quantum_circuits_errors N a
    have hbe : build_circuits N (a :: rest) = (Except.error e, [RoundEvent.circuitBuild a]) := by
      rw [build_circuits, he]
    rw [hbe]

/-- C9: with a backend that always returns empty histograms and sampled bases
never sharing a nontrivial factor with `N`, the orchestrator loop is still
running (has returned nothing) after every number of rounds, and — the return
type carrying no error — it propagates no exception. -/
theorem orchestrator_retries_forever (N : ℕ) (basesSeq : ℕ → List ℕ)
    (backend : CircuitDescriptor → ℕ → Option Counts) (hN : 4 ≤ N)
    (hbackend : ∀ c i, backend c i = some [])
    (hgcd : ∀ i, ∀ a ∈ basesSeq i, ¬(1 < Nat.gcd a N ∧ Nat.gcd a N < N)) :
    ∀ k, run_rounds N basesSeq backend k = none := by
  intro k
  induction k with
  | zero => rfl
  | succ k ih =>
    rw [run_rounds, ih]
    exact run_round_none_of_no_factor N (basesSeq k) backend (hgcd k)

/-- A bases sequence that never shares a factor with 15: `gcd(7, 15) = 1`. -/
def noFactorBases : ℕ → List ℕ := fun _ => [7]

theorem orchestrator_retries_forever_witness :
    4 ≤ 15 ∧ run_rounds 15 noFactorBases emptyHistBackend 4 = none :=
  ⟨by norm_num,
    orchestrator_retries_forever 15 noFactorBases emptyHistBackend (by norm_num)
      (fun _ _ => rfl)
      (fun i => by
        show ∀ a ∈ ([7] : List ℕ), ¬(1 < Nat.gcd a 15 ∧ Nat.gcd a 15 < 15)
        decide) 4⟩

end Shor
